import Mathlib

/-!
Shallow embedding of the optimization core of the opti-invest repository
(backend/app/services/optimization_service.py, backend/app/external/finnhub.py,
backend/app/external/marketstack.py, backend/app/services/portfolio_service.py,
api/optimization.py) together with proofs of the spec-level properties.

Machine floats of the source are embedded as exact rationals; wall-clock
times are rationals (rate limiter) or natural-number seconds (caches);
Python exceptions become `Except`/`Option` results.  The third-party
numerical solver (PyPortfolioOpt) is not part of the repository, so solver
invocations appear as oracle parameters constrained by the contract the
spec gives them; everything downstream of a solver call is embedded from
the repository source itself.
-/

/-! ### Mean-variance solver post-processing (`_optimize_weights`, lines 268-276)

The solver returns a weight per symbol.  `clean_weights(cutoff=0.005)`
zeroes weights whose magnitude is below the cutoff (the 5-decimal rounding
PyPortfolioOpt also applies is identity on the rationals used here), and
the service then renormalizes by the remaining total when it is positive. -/

/-- Weight vector: association list from symbol to weight, as produced by the
solver for `_optimize_weights`. -/
abbrev WeightVec := List (String × ℚ)

/-- Absolute value on the rationals, written so that it evaluates by kernel
reduction. -/
def absQ (q : ℚ) : ℚ := if q < 0 then -q else q

/-- Binary minimum on the rationals, written so that it evaluates by kernel
reduction. -/
def minQ (a b : ℚ) : ℚ := if a ≤ b then a else b

/-- Binary maximum on the rationals, written so that it evaluates by kernel
reduction. -/
def maxQ (a b : ℚ) : ℚ := if a ≤ b then b else a

/-- Modelled from the spec: the external solver's `clean_weights(cutoff)`
post-processing, "weights below a small cutoff (0.5%) are zeroed"
(PyPortfolioOpt is not part of the repository). -/
def cleanWeights (cutoff : ℚ) (ws : WeightVec) : WeightVec :=
  ws.map (fun p => if absQ p.2 < cutoff then (p.1, 0) else p)

/-- Renormalization step of `_optimize_weights`: divide every weight by the
total when the total is positive, otherwise keep the weights as they are. -/
def renormalizeWeights (ws : WeightVec) : WeightVec :=
  let total := (ws.map Prod.snd).sum
  if 0 < total then ws.map (fun p => (p.1, p.2 / total)) else ws

/-- Post-processing applied by `_optimize_weights` to the solver's weights:
`clean_weights` with the 0.5% cutoff followed by renormalization. -/
def optimizeWeightsPost (ws : WeightVec) : WeightVec :=
  renormalizeWeights (cleanWeights (5 / 1000) ws)

/-! ### Efficient frontier generator (`_generate_efficient_frontier`)

Each target return is handed to the solver; an infeasible target yields no
point (the `except: continue`).  The solve-and-measure composite
(`EfficientFrontier`, `efficient_return`, `clean_weights`,
`_calculate_portfolio_metrics`) is the external-solver oracle; the
deduplication, fallback pass and final sort are embedded from the source. -/

/-- One efficient-frontier point (`EfficientFrontierPoint` in models.py). -/
structure FPoint where
  ret : ℚ
  vol : ℚ
  sharpe : ℚ
  weights : WeightVec
deriving DecidableEq

/-- Rounding to four decimal places, as in `round(x, 4)` used for the
deduplication key. -/
def round4 (q : ℚ) : ℤ := round (q * 10000)

/-- Deduplication key of a frontier point:
`(round(point.expected_return, 4), round(point.volatility, 4))`. -/
def fkey (p : FPoint) : ℤ × ℤ := (round4 p.ret, round4 p.vol)

/-- Deduplication loop of `_generate_efficient_frontier` (lines 366-372):
walk the points, keep the first occurrence of each rounded key. -/
def dedupPoints : List FPoint → List (ℤ × ℤ) → List FPoint
  | [], _ => []
  | p :: ps, seen =>
    if fkey p ∈ seen then dedupPoints ps seen
    else p :: dedupPoints ps (fkey p :: seen)

/-- Insertion of a point into a volatility-sorted list. -/
def insertByVol (p : FPoint) : List FPoint → List FPoint
  | [] => [p]
  | q :: qs => if p.vol ≤ q.vol then p :: q :: qs else q :: insertByVol p qs

/-- The final `unique_points.sort(key=lambda x: x.volatility)`: sort the
points ascending by volatility. -/
def sortByVol (l : List FPoint) : List FPoint := l.foldr insertByVol []

/-- The frontier generator `_generate_efficient_frontier`: a first pass over
the targets with loose bounds (`solve1`), a fallback unbounded pass
(`solve2`) appended when fewer than 5 points succeeded, then deduplication
by rounded key and the sort by volatility.  The two passes are the two
solver configurations of the source; a `none` result is a target skipped by
the `except: continue`. -/
def generateFrontier (solve1 solve2 : ℚ → Option FPoint) (targets : List ℚ) :
    List FPoint :=
  let pass1 := targets.filterMap solve1
  let pts := if pass1.length < 5 then pass1 ++ targets.filterMap solve2 else pass1
  sortByVol (dedupPoints pts [])

/-! ### Rate-limited data gateway (`FinnhubClient._enforce_rate_limit`)

State: the list `calls_made` of recorded call timestamps.  Before each call
the entries older than the 60-second window are purged; with 60 or more
remaining, the caller sleeps until one second after the oldest recorded
call exits the window, purges again, and records the (post-sleep) time.
Calls through one gateway instance are sequential, so the run is driven by
nonnegative delays between the return of one call and the arrival of the
next. -/

/-- Purge of `calls_made`: keep timestamps within the window,
`current_time - call_time < 60`. -/
def purgeCalls (t : ℚ) (s : List ℚ) : List ℚ := s.filter (fun c => t - c < 60)

/-- Minimum of a list of timestamps (`min(self.calls_made)`); 0 on the empty
list, which the source never reaches. -/
def listMin : List ℚ → ℚ
  | [] => 0
  | [c] => c
  | c :: c2 :: cs => minQ c (listMin (c2 :: cs))

/-- One `_enforce_rate_limit` call arriving at time `t`: purge, then either
record immediately, or sleep past the oldest call and re-purge before
recording.  Returns the new `calls_made` list and the time at which the
call was recorded (equals the time the caller resumes). -/
def rlStep (s : List ℚ) (t : ℚ) : List ℚ × ℚ :=
  let s1 := purgeCalls t s
  if 60 ≤ s1.length then
    let oldest := listMin s1
    let wait := 60 - (t - oldest) + 1
    let t2 := if 0 < wait then t + wait else t
    let s2 := purgeCalls t2 s1
    (s2 ++ [t2], t2)
  else (s1 ++ [t], t)

/-- A sequential run of the gateway: each list entry is the nonnegative
delay between the previous call being recorded and the next call arriving.
Returns the recorded call times in order. -/
def rlRun (s : List ℚ) (t : ℚ) : List ℚ → List ℚ
  | [] => []
  | d :: ds =>
    let st := rlStep s (t + d)
    st.2 :: rlRun st.1 st.2 ds

/-- Membership of a recorded call time in the trailing 60-second window
ending at `T`. -/
def inWindow (T i : ℚ) : Bool := decide (T - 60 < i ∧ i ≤ T)

/-! ### Historical series cache (`_fetch_historical_data`)

The cache maps a key built from the sorted symbol list and the lookback to
a dataset and its storage time (seconds).  Freshness is decided by
`(datetime.now() - cached_time).seconds < 3600`: Python's
`timedelta.seconds` is the sub-day seconds component, i.e. the age modulo
86400, not the total age.  The Marketstack client (one HTTP request per
symbol, per-symbol failures absorbed) is the external oracle `ext`; a
`none` result is the raising path of `get_historical_data`. -/

/-- A fetched column: symbol with its price series; `none` entries are the
missing observations dropped by `dropna()`. -/
abbrev HistData := List (String × List (Option ℚ))

/-- The historical-data cache `self.cache`: key to dataset and storage
time, most recent binding first. -/
abbrev HCache := List (String × HistData × ℕ)

/-- Failure modes of `_fetch_historical_data` (all raised as `ValueError`
in the source and typed by the spec taxonomy). -/
inductive FetchErr where
  /-- The Marketstack client raised (`DataProviderError`). -/
  | dataProvider : FetchErr
  /-- An empty frame came back (`No historical data retrieved`). -/
  | noData : FetchErr
  /-- Fewer than 3 symbols kept 60 observations
  (`InsufficientHistoryError`). -/
  | insufficientHistory : FetchErr
deriving DecidableEq

deriving instance DecidableEq for Except

instance : DecidableEq (String × HistData × ℕ) := instDecidableEqProd

instance : DecidableEq (Except FetchErr HistData × HCache × ℕ) :=
  instDecidableEqProd

/-- Lexicographic code-point comparison of character lists, the order
Python's `sorted` uses on strings. -/
def charListLe : List Char → List Char → Bool
  | [], _ => true
  | _ :: _, [] => false
  | a :: as, b :: bs =>
    if a.val < b.val then true
    else if b.val < a.val then false
    else charListLe as bs

/-- String comparison by code points. -/
def strLe (a b : String) : Bool := charListLe a.data b.data

/-- Insertion of a string into a sorted list, lexicographic order. -/
def insertString (a : String) : List String → List String
  | [] => [a]
  | b :: bs => if strLe a b then a :: b :: bs else b :: insertString a bs

/-- Sorting of the symbol list, `sorted(symbols)`. -/
def sortStrings (l : List String) : List String := l.foldr insertString []

/-- Cache key of `_fetch_historical_data`:
`'-'.join(sorted(symbols)) + '_' + str(lookback_days)`. -/
def histKey (symbols : List String) (lookback : ℕ) : String :=
  String.intercalate "-" (sortStrings symbols) ++ "_" ++ toString lookback

/-- Python's `timedelta.seconds` on a nonnegative age given in whole
seconds: the seconds component after whole days are removed. -/
def tdSeconds (age : ℕ) : ℕ := age % 86400

/-- Column validity: at least 60 valid observations survive `dropna()`. -/
def validColumn (s : List (Option ℚ)) : Bool := 60 ≤ (s.filterMap id).length

/-- Miss path of `_fetch_historical_data`: call the Marketstack oracle (one
HTTP request per requested symbol), reject an empty frame, drop columns
with fewer than 60 observations, fail when fewer than 3 remain, and only
then store the filtered dataset under `key` at time `now`. -/
def fetchAndStore (cache : HCache) (key : String) (symbols : List String)
    (now : ℕ) (ext : List String → Option HistData) :
    Except FetchErr HistData × HCache × ℕ :=
  match ext symbols with
  | none => (Except.error FetchErr.dataProvider, cache, symbols.length)
  | some d =>
    if d.isEmpty then (Except.error FetchErr.noData, cache, symbols.length)
    else
      let valid := d.filter (fun c => validColumn c.2)
      if valid.length < 3 then
        (Except.error FetchErr.insufficientHistory, cache, symbols.length)
      else (Except.ok valid, (key, valid, now) :: cache, symbols.length)

/-- The cached fetch `_fetch_historical_data`: serve the stored dataset
when the key is present and `(now - stored).seconds < 3600`, otherwise
fetch, validate and store.  The third component counts external HTTP
requests issued by the call. -/
def fetchHistoricalData (cache : HCache) (symbols : List String)
    (lookback now : ℕ) (ext : List String → Option HistData) :
    Except FetchErr HistData × HCache × ℕ :=
  let key := histKey symbols lookback
  match List.lookup key cache with
  | some (d, t) =>
    if tdSeconds (now - t) < 3600 then (Except.ok d, cache, 0)
    else fetchAndStore cache key symbols now ext
  | none => fetchAndStore cache key symbols now ext

/-! ### Risk metrics calculator (`_calculate_max_drawdown`, `_calculate_cvar`)

The dataset is an aligned price frame: a list of column names and a list of
rows (one rational price per column, no missing entries once aligned).
`pct_change().dropna()` turns `n` rows into `n-1` rows of simple returns;
`returns.dot(weights_array)` weighs each row by the per-column weights,
symbols absent from the weight map contributing zero.  Both methods wrap
their body in `try/except` and return `None` on failure, so the embedding
is an `Option`: `none` stands for the absent value (the exception path,
e.g. `np.percentile` of an empty array, or the undefined minimum of an
empty drawdown series). -/

/-- Per-column weight array, `[weights.get(symbol, 0) for symbol in columns]`. -/
def weightsArray (symbols : List String) (w : WeightVec) : List ℚ :=
  symbols.map (fun s => (List.lookup s w).getD 0)

/-- Row-wise simple returns of the price frame,
`historical_data.pct_change().dropna()`. -/
def pctChangeRows (rows : List (List ℚ)) : List (List ℚ) :=
  List.zipWith (fun prev cur => List.zipWith (fun a b => b / a - 1) prev cur)
    rows rows.tail

/-- Portfolio daily-return series, `returns.dot(weights_array)`. -/
def portfolioReturns (symbols : List String) (rows : List (List ℚ))
    (w : WeightVec) : List ℚ :=
  (pctChangeRows rows).map
    (fun row => ((row.zip (weightsArray symbols w)).map (fun p => p.1 * p.2)).sum)

/-- Cumulative growth curve, `(1 + portfolio_returns).cumprod()`. -/
def cumGrowth (rets : List ℚ) : List ℚ :=
  (List.scanl (fun a r => a * (1 + r)) 1 rets).tail

/-- Running maximum of the growth curve, `cumulative.expanding().max()`. -/
def runningMax : List ℚ → List ℚ
  | [] => []
  | x :: xs => List.scanl (fun m y => maxQ m y) x xs

/-- Maximum drawdown, `_calculate_max_drawdown`: the most negative
drawdown `(cumulative - running_max) / running_max`, reported as its
absolute value; `none` when the drawdown series is empty and its minimum
is undefined. -/
def maxDrawdownCalc (symbols : List String) (rows : List (List ℚ))
    (w : WeightVec) : Option ℚ :=
  let cum := cumGrowth (portfolioReturns symbols rows w)
  let dd := List.zipWith (fun c m => (c - m) / m) cum (runningMax cum)
  match dd with
  | [] => none
  | _ => some (absQ (listMin dd))

/-- Insertion of a rational into a sorted list. -/
def insertQ (a : ℚ) : List ℚ → List ℚ
  | [] => [a]
  | b :: bs => if a ≤ b then a :: b :: bs else b :: insertQ a bs

/-- Ascending sort of a rational list. -/
def sortQ (l : List ℚ) : List ℚ := l.foldr insertQ []

/-- Linear-interpolation percentile, `np.percentile(xs, q)`; `none` on the
empty input, where numpy raises. -/
def percentileLinear (q : ℚ) (xs : List ℚ) : Option ℚ :=
  match sortQ xs with
  | [] => none
  | s =>
    let pos : ℚ := (s.length - 1 : ℕ) * q / 100
    let i : ℕ := (⌊pos⌋).toNat
    let frac : ℚ := pos - (⌊pos⌋ : ℚ)
    let lo := s.getD i 0
    let hi := if i + 1 < s.length then s.getD (i + 1) 0 else lo
    some (lo + frac * (hi - lo))

/-- Conditional value at risk, `_calculate_cvar` with `confidence = 0.05`:
the empirical 5th percentile of the portfolio returns, the mean of the
returns at or below it (the percentile itself when none are), annualized
and reported as an absolute value.  The irrational annualization factor
`sqrt(252)` is the parameter `ann`; `none` is the exception path on an
empty return series. -/
def cvarCalc (ann : ℚ) (symbols : List String) (rows : List (List ℚ))
    (w : WeightVec) : Option ℚ :=
  let prets := portfolioReturns symbols rows w
  match percentileLinear 5 prets with
  | none => none
  | some var =>
    let tail := prets.filter (fun r => r ≤ var)
    let c := if tail.length ≠ 0 then tail.sum / tail.length else var
    some (absQ (c * ann))

/-! ### Portfolio holdings with prices (`PortfolioService`)

`get_holdings_with_current_prices` resolves a price per holding: a validly
cached quote, else a fresh Finnhub quote (one gateway call per uncached
unique symbol), else the random-variation fallback, which appears here as
the oracle `fallback`.  `get_holdings_with_provided_prices` uses the
request-supplied price map with `buy_price` as default and issues no
calls. -/

/-- A stored holding (the fields the optimization path reads). -/
structure Holding0 where
  id : String
  symbol : String
  quantity : ℚ
  buyPrice : ℚ
deriving DecidableEq

/-- A holding enriched with its resolved current price and market value. -/
structure HWM where
  symbol : String
  quantity : ℚ
  currentPrice : ℚ
  value : ℚ
deriving DecidableEq

/-- Price resolution for one holding: cached quote first, then fresh
quote, either used only when positive, otherwise the fallback estimate. -/
def resolvePrice (cachedQuote quote : String → Option ℚ)
    (fallback : String → ℚ) (h : Holding0) : ℚ :=
  let q := match cachedQuote h.symbol with
    | some p => some p
    | none => quote h.symbol
  match q with
  | some p => if 0 < p then p else fallback h.symbol
  | none => fallback h.symbol

/-- The quote-fetching path `get_holdings_with_current_prices`: the second
component counts the Finnhub quote calls issued, one per unique symbol
without a valid cache entry (the iteration order of Python's `set` does
not affect the count). -/
def getHoldingsWithCurrentPrices (hs : List Holding0)
    (cachedQuote quote : String → Option ℚ) (fallback : String → ℚ) :
    List HWM × ℕ :=
  let syms := (hs.map (fun h => h.symbol)).eraseDups
  let toFetch := syms.filter (fun s => (cachedQuote s).isNone)
  (hs.map (fun h =>
      let p := resolvePrice cachedQuote quote fallback h
      { symbol := h.symbol, quantity := h.quantity, currentPrice := p,
        value := h.quantity * p }),
    toFetch.length)

/-- The no-fetch path `get_holdings_with_provided_prices`: price from the
request-supplied map, `buy_price` as default. -/
def getHoldingsWithProvidedPrices (hs : List Holding0)
    (prices : List (String × ℚ)) : List HWM :=
  hs.map (fun h =>
    let p := (List.lookup h.symbol prices).getD h.buyPrice
    { symbol := h.symbol, quantity := h.quantity, currentPrice := p,
      value := h.quantity * p })

/-! ### Optimization orchestrator (`optimize_portfolio`)

The prefix of an orchestration run, up to and including the historical
fetch: result-cache check, best-effort in-flight recheck, holdings
acquisition, the holdings-count and portfolio-value guards, then
`_fetch_historical_data`.  Everything after (expected returns, covariance,
solver, frontier, metrics, trades, assembly) is the oracle `finish`, since
the claims settled here concern the failure prefix and the call counts.
The result triple carries the outcome, the number of quote calls and the
number of historical-data HTTP calls issued. -/

/-- Typed failures of an orchestration run. -/
inductive OErr where
  /-- `No holdings found in portfolio`. -/
  | noHoldings : OErr
  /-- `Need at least 3 holdings for meaningful optimization`. -/
  | insufficientHoldings : OErr
  /-- `Portfolio has no value` from `_calculate_current_weights`. -/
  | zeroValue : OErr
  /-- A `_fetch_historical_data` failure. -/
  | histFetch (e : FetchErr) : OErr
  /-- Any failure past the historical fetch. -/
  | downstream : OErr
deriving DecidableEq

/-- The `InsufficientHoldingsError` family of the spec taxonomy: fewer
than 3 holdings or zero portfolio value. -/
def isInsufficientHoldingsErr : OErr → Bool
  | OErr.noHoldings => true
  | OErr.insufficientHoldings => true
  | OErr.zeroValue => true
  | _ => false

/-- Body of `optimize_portfolio` after the result-cache and in-flight
checks: fetch holdings (counting quote calls), guard the holdings count
and portfolio value, fetch historical data (counting HTTP calls), then
hand over to the downstream stages. -/
def optimizeBody {ρ : Type} (r_prices : Option (List (String × ℚ)))
    (hs : List Holding0) (cachedQuote quote : String → Option ℚ)
    (fallback : String → ℚ) (hcache : HCache) (lookback now : ℕ)
    (ext : List String → Option HistData)
    (finish : HistData → List HWM → Except OErr ρ) :
    Except OErr ρ × ℕ × ℕ :=
  let hq := match r_prices with
    | some ps => (getHoldingsWithProvidedPrices hs ps, 0)
    | none => getHoldingsWithCurrentPrices hs cachedQuote quote fallback
  let holdings := hq.1
  let qcalls := hq.2
  if holdings.isEmpty then (Except.error OErr.noHoldings, qcalls, 0)
  else if holdings.length < 3 then
    (Except.error OErr.insufficientHoldings, qcalls, 0)
  else
    let total := (holdings.map (fun h => h.value)).sum
    if total ≤ 0 then (Except.error OErr.zeroValue, qcalls, 0)
    else
      let symbols := holdings.map (fun h => h.symbol)
      match fetchHistoricalData hcache symbols lookback now ext with
      | (Except.error e, _, hn) => (Except.error (OErr.histFetch e), qcalls, hn)
      | (Except.ok d, _, hn) =>
        if d.isEmpty then (Except.error (OErr.histFetch FetchErr.noData), qcalls, hn)
        else (finish d holdings, qcalls, hn)

/-- The orchestration run `optimize_portfolio`: a fresh cached result is
returned at once; with the key in flight the run sleeps and rechecks the
cache once (`recheck`), returning a result that appeared; otherwise the
body runs.  `cachedResult` is the result cache entry already fresh at the
run's start, `none` when absent or expired. -/
def optimizePortfolioModel {ρ : Type} (cachedResult : Option ρ)
    (inFlight : Bool) (recheck : Option ρ)
    (r_prices : Option (List (String × ℚ))) (hs : List Holding0)
    (cachedQuote quote : String → Option ℚ) (fallback : String → ℚ)
    (hcache : HCache) (lookback now : ℕ)
    (ext : List String → Option HistData)
    (finish : HistData → List HWM → Except OErr ρ) :
    Except OErr ρ × ℕ × ℕ :=
  match cachedResult with
  | some res => (Except.ok res, 0, 0)
  | none =>
    match inFlight, recheck with
    | true, some res => (Except.ok res, 0, 0)
    | _, _ =>
      optimizeBody r_prices hs cachedQuote quote fallback hcache lookback now
        ext finish

/-! ### Risk configuration (`_get_risk_config`, `RISK_PROFILES`)

Profile defaults are overridden by request parameters, each guarded by
Python truthiness (`if request.target_return:` and so on), so a supplied
zero or empty string never overrides. -/

/-- One risk profile configuration (a `RISK_PROFILES` entry). -/
structure RiskConfig where
  max_volatility : Option ℚ
  min_weight : ℚ
  max_weight : ℚ
  objective : String
  target_return : ℚ
deriving DecidableEq

/-- The `RISK_PROFILES` table of `OptimizationService`. -/
def riskProfiles (s : String) : Option RiskConfig :=
  if s = "conservative" then
    some { max_volatility := some (15/100), min_weight := 5/100,
           max_weight := 25/100, objective := "min_volatility",
           target_return := 8/100 }
  else if s = "moderate" then
    some { max_volatility := some (20/100), min_weight := 2/100,
           max_weight := 30/100, objective := "efficient_return",
           target_return := 12/100 }
  else if s = "aggressive" then
    some { max_volatility := none, min_weight := 1/100,
           max_weight := 40/100, objective := "max_sharpe",
           target_return := 15/100 }
  else none

/-- The request fields `_get_risk_config` and the route validation read
(`OptimizationRequest` in models.py); `target_return` is optional, the
others carry their pydantic defaults when not supplied. -/
structure ReqM where
  risk_profile : String
  objective : String
  target_return : Option ℚ
  min_weight : ℚ
  max_weight : ℚ
deriving DecidableEq

/-- Python truthiness of the optional `target_return`: `None` and `0.0`
are falsy. -/
def truthyTarget : Option ℚ → Bool
  | none => false
  | some t => t ≠ 0

/-- The config builder `_get_risk_config`: profile defaults overridden by
the request parameters, each only when truthy; `none` is the
`Invalid risk profile` raise. -/
def getRiskConfig (r : ReqM) : Option RiskConfig :=
  match riskProfiles r.risk_profile with
  | none => none
  | some base =>
    some { base with
      target_return :=
        match r.target_return with
        | some t => if t ≠ 0 then t else base.target_return
        | none => base.target_return,
      min_weight := if r.min_weight ≠ 0 then r.min_weight else base.min_weight,
      max_weight := if r.max_weight ≠ 0 then r.max_weight else base.max_weight,
      objective := if r.objective ≠ "" then r.objective else base.objective }

/-! ### Route validation (`api/optimization.py`, `optimize_portfolio` route)

The request checks the route performs before touching the portfolio:
profile whitelist, objective whitelist, and the `target_return` guard
`if request.objective == "efficient_return" and not request.target_return`. -/

/-- Request-validation failures of the route; the spec taxonomy types all
three as `InvalidRequestError`. -/
inductive RouteErr where
  | invalidRiskProfile : RouteErr
  | invalidObjective : RouteErr
  | missingTargetReturn : RouteErr
deriving DecidableEq

/-- The risk profiles the route accepts. -/
def validProfiles : List String := ["conservative", "moderate", "aggressive"]

/-- The objectives the route accepts. -/
def validObjectives : List String :=
  ["max_sharpe", "min_volatility", "efficient_return"]

/-- Request validation of the `/optimize` route, in source order. -/
def validateOptimizationRequest (r : ReqM) : Option RouteErr :=
  if r.risk_profile ∉ validProfiles then some RouteErr.invalidRiskProfile
  else if r.objective ∉ validObjectives then some RouteErr.invalidObjective
  else if r.objective = "efficient_return" ∧ ¬ truthyTarget r.target_return then
    some RouteErr.missingTargetReturn
  else none

/-! ## Bridging lemmas for the kernel-reducible primitives -/

theorem absQ_eq_abs (q : ℚ) : absQ q = |q| := by
  unfold absQ
  split
  · exact (abs_of_neg (by assumption)).symm
  · exact (abs_of_nonneg (not_lt.mp (by assumption))).symm

theorem absQ_nonneg (q : ℚ) : 0 ≤ absQ q := by
  rw [absQ_eq_abs]; exact abs_nonneg q

theorem minQ_eq_min (a b : ℚ) : minQ a b = min a b := by
  rw [minQ, min_def]

theorem maxQ_eq_max (a b : ℚ) : maxQ a b = max a b := by
  rw [maxQ, max_def]

theorem sum_map_div (l : List ℚ) (t : ℚ) :
    (l.map (fun x => x / t)).sum = l.sum / t := by
  induction l with
  | nil => simp
  | cons x xs ih => simp [ih, add_div]

/-! ## C1: solver post-processing -/

theorem cleanWeights_map_snd (c : ℚ) (ws : WeightVec) :
    (cleanWeights c ws).map Prod.snd =
      ws.map (fun q => if absQ q.2 < c then 0 else q.2) := by
  simp only [cleanWeights, List.map_map]
  refine List.map_congr_left (fun q _ => ?_)
  by_cases h : absQ q.2 < c <;> simp [h]

theorem cleanWeights_total_le (c : ℚ) (ws : WeightVec)
    (h0 : ∀ p ∈ ws, 0 ≤ p.2) (hsum : (ws.map Prod.snd).sum = 1) :
    ((cleanWeights c ws).map Prod.snd).sum ≤ 1 := by
  rw [cleanWeights_map_snd, ← hsum]
  refine List.sum_le_sum (fun q hq => ?_)
  by_cases h : absQ q.2 < c <;> simp [h]
  exact h0 q hq

theorem cleanWeights_total_ge (c : ℚ) (ws : WeightVec) (hc : 0 < c)
    (h0 : ∀ p ∈ ws, 0 ≤ p.2) (hex : ∃ p ∈ ws, c ≤ p.2) :
    c ≤ ((cleanWeights c ws).map Prod.snd).sum := by
  obtain ⟨p, hp, hcp⟩ := hex
  have hnn : ∀ x ∈ (cleanWeights c ws).map Prod.snd, 0 ≤ x := by
    rw [cleanWeights_map_snd]
    intro x hx
    obtain ⟨q, hq, rfl⟩ := List.mem_map.mp hx
    by_cases h : absQ q.2 < c <;> simp [h]
    exact h0 q hq
  have hpmem : p.2 ∈ (cleanWeights c ws).map Prod.snd := by
    rw [cleanWeights_map_snd]
    have : ¬ absQ p.2 < c := by
      rw [absQ_eq_abs, abs_of_nonneg (le_trans (le_of_lt hc) hcp)]
      exact not_lt.mpr hcp
    exact List.mem_map.mpr ⟨p, hp, by simp [this]⟩
  exact le_trans hcp (List.single_le_sum hnn _ hpmem)

/-- C1 (as stated, refuted): with the risk configuration min_weight = 0.001
and max_weight = 0.5 — reachable through request overrides, as the final
conjunct shows — the solver may return the in-bounds, sum-one weight
vector (0.004, 0.5, 0.496); the 0.5% cutoff zeroes the first weight, and
the renormalization pushes the second to 125/249 > max_weight, which is
neither zero nor within [min_weight, max_weight]. -/
theorem optimizeWeightsPost_exceeds_max_cex :
    (∀ p ∈ ([("A", 1/250), ("B", 1/2), ("C", 62/125)] : WeightVec),
        (1:ℚ)/1000 ≤ p.2 ∧ p.2 ≤ 1/2) ∧
    ((([("A", 1/250), ("B", 1/2), ("C", 62/125)] : WeightVec).map Prod.snd).sum
        = 1) ∧
    (∃ p ∈ optimizeWeightsPost [("A", 1/250), ("B", 1/2), ("C", 62/125)],
        ¬(p.2 = 0 ∨ ((1:ℚ)/1000 ≤ p.2 ∧ p.2 ≤ 1/2))) ∧
    getRiskConfig
        { risk_profile := "aggressive", objective := "max_sharpe",
          target_return := none, min_weight := 1/1000, max_weight := 1/2 } =
      some { max_volatility := none, min_weight := 1/1000, max_weight := 1/2,
             objective := "max_sharpe", target_return := 15/100 } := by
  refine ⟨?_, ?_, ⟨("B", 125/249), ?_, ?_⟩, ?_⟩
  · intro p hp
    fin_cases hp <;> norm_num
  · norm_num
  · norm_num [optimizeWeightsPost, cleanWeights, renormalizeWeights, absQ]
  · norm_num
  · simp only [getRiskConfig, riskProfiles]
    rw [if_neg (by decide), if_neg (by decide)]
    norm_num

/-- C1 (amended): for any solver output within the configured bounds
summing to 1 (with nonnegative min_weight, and some weight at or above the
0.5% cutoff so the renormalization runs), the post-processed weights sum to
exactly 1 — hence to 1 within 1e-4 — and every weight is either exactly 0
or at least min_weight; the max_weight bound, however, can be exceeded by
the renormalization, as the companion counterexample shows. -/
theorem optimizeWeightsPost_sum_one_and_min_bound (mn mx : ℚ) (ws : WeightVec)
    (hmn : 0 ≤ mn) (hb : ∀ p ∈ ws, mn ≤ p.2 ∧ p.2 ≤ mx)
    (hsum : (ws.map Prod.snd).sum = 1)
    (hex : ∃ p ∈ ws, 5/1000 ≤ p.2) :
    ((optimizeWeightsPost ws).map Prod.snd).sum = 1 ∧
    ∀ p ∈ optimizeWeightsPost ws, p.2 = 0 ∨ mn ≤ p.2 := by
  have h0 : ∀ p ∈ ws, 0 ≤ p.2 := fun p hp => le_trans hmn (hb p hp).1
  set cw := cleanWeights (5/1000) ws with hcw
  set total := (cw.map Prod.snd).sum with htotal
  have hle : total ≤ 1 := cleanWeights_total_le _ _ h0 hsum
  have hge : (5:ℚ)/1000 ≤ total := by
    exact cleanWeights_total_ge _ _ (by norm_num) h0 hex
  have hpos : 0 < total := lt_of_lt_of_le (by norm_num) hge
  have hres : optimizeWeightsPost ws = cw.map (fun p => (p.1, p.2 / total)) := by
    rw [optimizeWeightsPost, renormalizeWeights, ← hcw, ← htotal, if_pos hpos]
  constructor
  · rw [hres, List.map_map]
    rw [show (Prod.snd ∘ fun p : String × ℚ => (p.1, p.2 / total)) =
        (fun x => x / total) ∘ Prod.snd from rfl, ← List.map_map, sum_map_div,
      ← htotal, div_self (ne_of_gt hpos)]
  · intro p hp
    rw [hres] at hp
    obtain ⟨q, hq, rfl⟩ := List.mem_map.mp hp
    obtain ⟨r, hr, hqr⟩ := List.mem_map.mp hq
    by_cases h : absQ r.2 < 5/1000
    · left
      have hq2 : q = (r.1, 0) := by rw [← hqr]; simp [h]
      subst hq2
      simp
    · right
      have hq2 : q = r := by rw [← hqr]; simp [h]
      rw [hq2]
      have hr2 : mn ≤ r.2 := (hb r hr).1
      have hr0 : 0 ≤ r.2 := le_trans hmn hr2
      have hgrow : r.2 ≤ r.2 / total := by
        rw [le_div_iff₀ hpos]
        calc r.2 * total ≤ r.2 * 1 := mul_le_mul_of_nonneg_left hle hr0
          _ = r.2 := mul_one r.2
      exact le_trans hr2 hgrow

/-- Witness for the amended C1 statement at the counterexample input. -/
theorem optimizeWeightsPost_sum_one_and_min_bound_witness :
    ((optimizeWeightsPost [("A", 1/250), ("B", 1/2), ("C", 62/125)]).map
        Prod.snd).sum = 1 ∧
    ∀ p ∈ optimizeWeightsPost [("A", 1/250), ("B", 1/2), ("C", 62/125)],
      p.2 = 0 ∨ (1:ℚ)/1000 ≤ p.2 :=
  optimizeWeightsPost_sum_one_and_min_bound (1/1000) (1/2)
    [("A", 1/250), ("B", 1/2), ("C", 62/125)]
    (by norm_num)
    (by
      intro p hp
      simp only [List.mem_cons, List.not_mem_nil, or_false] at hp
      rcases hp with rfl | rfl | rfl <;> norm_num)
    (by norm_num)
    ⟨("B", 1/2), by norm_num⟩

/-! ## C2: efficient frontier generator -/

theorem insertByVol_perm (p : FPoint) (l : List FPoint) :
    (insertByVol p l).Perm (p :: l) := by
  induction l with
  | nil => rfl
  | cons q qs ih =>
    rw [insertByVol]
    split
    · rfl
    · exact List.Perm.trans (List.Perm.cons q ih) (List.Perm.swap p q qs)

theorem sortByVol_perm (l : List FPoint) : (sortByVol l).Perm l := by
  induction l with
  | nil => rfl
  | cons p ps ih =>
    exact List.Perm.trans (insertByVol_perm p (sortByVol ps)) (List.Perm.cons p ih)

theorem insertByVol_sorted (p : FPoint) (l : List FPoint)
    (h : l.Pairwise (fun a b => a.vol ≤ b.vol)) :
    (insertByVol p l).Pairwise (fun a b => a.vol ≤ b.vol) := by
  induction l with
  | nil => simp [insertByVol]
  | cons q qs ih =>
    rw [insertByVol]
    rcases List.pairwise_cons.mp h with ⟨hq, hqs⟩
    split
    · refine List.pairwise_cons.mpr ⟨?_, h⟩
      intro x hx
      rcases List.mem_cons.mp hx with rfl | hx
      · assumption
      · exact le_trans (by assumption) (hq x hx)
    · refine List.pairwise_cons.mpr ⟨?_, ih hqs⟩
      intro x hx
      have hx2 := (insertByVol_perm p qs).mem_iff.mp hx
      rcases List.mem_cons.mp hx2 with rfl | hx2
      · exact le_of_not_le (by assumption)
      · exact hq x hx2

theorem sortByVol_sorted (l : List FPoint) :
    (sortByVol l).Pairwise (fun a b => a.vol ≤ b.vol) := by
  induction l with
  | nil => simp [sortByVol]
  | cons p ps ih => exact insertByVol_sorted p _ ih

theorem dedupPoints_not_mem_seen :
    ∀ (l : List FPoint) (seen : List (ℤ × ℤ)),
      ∀ q ∈ dedupPoints l seen, fkey q ∉ seen := by
  intro l
  induction l with
  | nil => intro seen q hq; simp [dedupPoints] at hq
  | cons p ps ih =>
    intro seen q hq
    rw [dedupPoints] at hq
    split at hq
    · exact ih seen q hq
    · rcases List.mem_cons.mp hq with rfl | hq
      · assumption
      · intro hmem
        exact ih (fkey p :: seen) q hq (List.mem_cons_of_mem _ hmem)

theorem dedupPoints_pairwise :
    ∀ (l : List FPoint) (seen : List (ℤ × ℤ)),
      (dedupPoints l seen).Pairwise (fun a b => fkey a ≠ fkey b) := by
  intro l
  induction l with
  | nil => intro seen; simp [dedupPoints]
  | cons p ps ih =>
    intro seen
    rw [dedupPoints]
    split
    · exact ih seen
    · refine List.pairwise_cons.mpr ⟨?_, ih (fkey p :: seen)⟩
      intro q hq he
      exact dedupPoints_not_mem_seen ps (fkey p :: seen) q hq
        (he ▸ List.mem_cons_self (fkey p) seen)

/-- C2: for every solver behavior and target list, the generated frontier
is sorted ascending by volatility, no two of its points share the same
(return, volatility) key rounded to 4 decimals (the first occurrence per
key having been kept), and it is the empty sequence when no target is
feasible in either pass; the generator is a total function, i.e. never
raises. -/
theorem generateFrontier_sorted_nodup_empty (solve1 solve2 : ℚ → Option FPoint)
    (targets : List ℚ) :
    (generateFrontier solve1 solve2 targets).Pairwise
      (fun a b => a.vol ≤ b.vol) ∧
    (generateFrontier solve1 solve2 targets).Pairwise
      (fun a b => fkey a ≠ fkey b) ∧
    ((∀ t ∈ targets, solve1 t = none) → (∀ t ∈ targets, solve2 t = none) →
      generateFrontier solve1 solve2 targets = []) := by
  refine ⟨sortByVol_sorted _, ?_, ?_⟩
  · exact ((sortByVol_perm _).pairwise_iff
      (fun hab he => hab he.symm)).mpr (dedupPoints_pairwise _ [])
  · intro h1 h2
    have e1 : targets.filterMap solve1 = [] := List.filterMap_eq_nil_iff.mpr h1
    have e2 : targets.filterMap solve2 = [] := List.filterMap_eq_nil_iff.mpr h2
    simp [generateFrontier, e1, e2, dedupPoints, sortByVol]

/-- Witness for C2 at a concrete solver pair and target list. -/
theorem generateFrontier_sorted_nodup_empty_witness :
    generateFrontier (fun _ => none) (fun _ => none) [0, 1] = [] :=
  (generateFrontier_sorted_nodup_empty (fun _ => none) (fun _ => none)
    [0, 1]).2.2 (fun _ _ => rfl) (fun _ _ => rfl)

/-! ## C3: rate-limited gateway -/

theorem listMin_mem : ∀ (l : List ℚ), l ≠ [] → listMin l ∈ l := by
  intro l
  induction l with
  | nil => intro h; exact absurd rfl h
  | cons c cs ih =>
    intro _
    cases cs with
    | nil => simp [listMin]
    | cons c2 cs2 =>
      rw [listMin, minQ]
      split
      · exact List.mem_cons_self _ _
      · exact List.mem_cons_of_mem _ (ih (by simp))

theorem length_filter_lt_of_mem {α : Type} {l : List α} {p : α → Bool} {x : α}
    (hx : x ∈ l) (hpx : p x = false) : (l.filter p).length < l.length := by
  induction l with
  | nil => cases hx
  | cons y ys ih =>
    rcases List.mem_cons.mp hx with rfl | hx2
    · rw [List.filter_cons, if_neg (by simp [hpx])]
      exact Nat.lt_succ_of_le (List.length_filter_le p ys)
    · rw [List.filter_cons]
      split
      · simpa using ih hx2
      · exact Nat.lt_succ_of_lt (ih hx2)

theorem length_filter_partition {α : Type} (l : List α) (p q : α → Bool) :
    (l.filter q).length =
      ((l.filter p).filter q).length +
        ((l.filter (fun a => !(p a))).filter q).length := by
  induction l with
  | nil => simp
  | cons x xs ih =>
    by_cases hp : p x = true <;> by_cases hq : q x = true <;>
      simp [List.filter_cons, hp, hq, ih] <;> omega

theorem rlStep_eq_busy (s : List ℚ) (t : ℚ)
    (h : 60 ≤ (purgeCalls t s).length) :
    rlStep s t =
      (purgeCalls (listMin (purgeCalls t s) + 61) (purgeCalls t s) ++
        [listMin (purgeCalls t s) + 61],
       listMin (purgeCalls t s) + 61) := by
  have hne : purgeCalls t s ≠ [] := by
    intro he
    rw [he] at h
    simp at h
  have hmem := listMin_mem _ hne
  have hlt : t - listMin (purgeCalls t s) < 60 :=
    of_decide_eq_true (List.mem_filter.mp hmem).2
  have hwait : 0 < 60 - (t - listMin (purgeCalls t s)) + 1 := by linarith
  have ht2 : t + (60 - (t - listMin (purgeCalls t s)) + 1) =
      listMin (purgeCalls t s) + 61 := by ring
  simp only [rlStep]
  rw [if_pos h, if_pos hwait, ht2]

theorem rlStep_eq_idle (s : List ℚ) (t : ℚ)
    (h : ¬ 60 ≤ (purgeCalls t s).length) :
    rlStep s t = (purgeCalls t s ++ [t], t) := by
  simp only [rlStep]
  rw [if_neg h]

theorem rlStep_time_ge (s : List ℚ) (t : ℚ) : t ≤ (rlStep s t).2 := by
  by_cases h : 60 ≤ (purgeCalls t s).length
  · rw [rlStep_eq_busy s t h]
    have hne : purgeCalls t s ≠ [] := by
      intro he
      rw [he] at h
      simp at h
    have hlt : t - listMin (purgeCalls t s) < 60 :=
      of_decide_eq_true (List.mem_filter.mp (listMin_mem _ hne)).2
    simp only
    linarith
  · rw [rlStep_eq_idle s t h]

theorem rlStep_spec (s : List ℚ) (t : ℚ) (hlen : s.length ≤ 60) :
    ∃ p : ℚ → Bool,
      (rlStep s t).1 = s.filter p ++ [(rlStep s t).2] ∧
      t ≤ (rlStep s t).2 ∧ (s.filter p).length ≤ 59 ∧
      ∀ c ∈ s, p c = false → 60 ≤ (rlStep s t).2 - c := by
  by_cases h : 60 ≤ (purgeCalls t s).length
  · have hne : purgeCalls t s ≠ [] := by
      intro he
      rw [he] at h
      simp at h
    have hlt : t - listMin (purgeCalls t s) < 60 :=
      of_decide_eq_true (List.mem_filter.mp (listMin_mem _ hne)).2
    rw [rlStep_eq_busy s t h]
    refine ⟨fun c => decide (listMin (purgeCalls t s) + 61 - c < 60) &&
      decide (t - c < 60), ?_, ?_, ?_, ?_⟩
    · simp only [purgeCalls, List.filter_filter]
    · simp only
      linarith
    · have hfe : s.filter (fun c =>
          decide (listMin (purgeCalls t s) + 61 - c < 60) &&
            decide (t - c < 60)) =
          purgeCalls (listMin (purgeCalls t s) + 61) (purgeCalls t s) := by
        simp only [purgeCalls, List.filter_filter]
      rw [hfe]
      have hdrop : decide
          (listMin (purgeCalls t s) + 61 - listMin (purgeCalls t s) < 60)
            = false := by
        rw [decide_eq_false_iff_not]
        intro hcon
        linarith
      have := @length_filter_lt_of_mem ℚ (purgeCalls t s)
        (fun c => decide (listMin (purgeCalls t s) + 61 - c < 60))
        (listMin (purgeCalls t s)) (listMin_mem _ hne) hdrop
      have he2 : List.filter
          (fun c => decide (listMin (purgeCalls t s) + 61 - c < 60))
          (purgeCalls t s) =
          purgeCalls (listMin (purgeCalls t s) + 61) (purgeCalls t s) := rfl
      rw [he2] at this
      have hs1 : (purgeCalls t s).length ≤ 60 :=
        le_trans (List.length_filter_le _ s) hlen
      omega
    · intro c _ hpc
      rcases Bool.and_eq_false_iff.mp hpc with hb | hb
      · have := decide_eq_false_iff_not.mp hb
        simp only
        linarith [not_lt.mp this]
      · have := not_lt.mp (decide_eq_false_iff_not.mp hb)
        simp only
        linarith
  · rw [rlStep_eq_idle s t h]
    refine ⟨fun c => decide (t - c < 60), rfl, le_refl t, ?_, ?_⟩
    · have hlt : (purgeCalls t s).length < 60 := not_le.mp h
      have he : s.filter (fun c => decide (t - c < 60)) = purgeCalls t s := rfl
      rw [he]
      omega
    · intro c _ hpc
      have := not_lt.mp (decide_eq_false_iff_not.mp hpc)
      linarith

theorem rlRun_ge : ∀ (ds s : List ℚ) (t : ℚ), (∀ d ∈ ds, 0 ≤ d) →
    ∀ i ∈ rlRun s t ds, t ≤ i := by
  intro ds
  induction ds with
  | nil =>
    intro s t _ i hi
    simp [rlRun] at hi
  | cons d rest ih =>
    intro s t hd i hi
    simp only [rlRun] at hi
    rcases List.mem_cons.mp hi with rfl | hi2
    · calc t ≤ t + d := le_add_of_nonneg_right (hd d (by simp))
        _ ≤ (rlStep s (t + d)).2 := rlStep_time_ge _ _
    · have h1 : t + d ≤ (rlStep s (t + d)).2 := rlStep_time_ge _ _
      have h2 := ih (rlStep s (t + d)).1 (rlStep s (t + d)).2
        (fun x hx => hd x (List.mem_cons_of_mem _ hx)) i hi2
      have h3 : 0 ≤ d := hd d (by simp)
      linarith

theorem rlRun_window_count :
    ∀ (ds : List ℚ), (∀ d ∈ ds, 0 ≤ d) →
      ∀ (s : List ℚ) (t T : ℚ), s.length ≤ 60 →
        ((rlRun s t ds).filter (fun i => inWindow T i)).length +
          (s.filter (fun c => inWindow T c)).length ≤ 60 := by
  intro ds
  induction ds with
  | nil =>
    intro _ s t T hlen
    simp only [rlRun, List.filter_nil, List.length_nil, Nat.zero_add]
    exact le_trans (List.length_filter_le _ s) hlen
  | cons d rest ih =>
    intro hd s t T hlen
    obtain ⟨p, heq, hge, hplen, hdrop⟩ := rlStep_spec s (t + d) hlen
    simp only [rlRun]
    set t2 := (rlStep s (t + d)).2 with ht2
    set s2 := (rlStep s (t + d)).1 with hs2
    have hdrest : ∀ x ∈ rest, (0:ℚ) ≤ x :=
      fun x hx => hd x (List.mem_cons_of_mem _ hx)
    by_cases hc : ∃ c ∈ s, p c = false ∧ inWindow T c = true
    · obtain ⟨c, hcs, hpc, hcw⟩ := hc
      have h60 : 60 ≤ t2 - c := hdrop c hcs hpc
      simp only [inWindow, decide_eq_true_eq] at hcw
      have hT : T < t2 := by linarith [hcw.1]
      have hnil : (t2 :: rlRun s2 t2 rest).filter (fun i => inWindow T i)
          = [] := by
        rw [List.filter_eq_nil_iff]
        intro i hi
        have hti : t2 ≤ i := by
          rcases List.mem_cons.mp hi with rfl | hi2
          · exact le_refl _
          · exact rlRun_ge rest s2 t2 hdrest i hi2
        simp only [inWindow, decide_eq_true_eq, not_and, not_le]
        intro _
        exact lt_of_lt_of_le hT hti
      rw [hnil]
      simp only [List.length_nil, Nat.zero_add]
      exact le_trans (List.length_filter_le _ s) hlen
    · have hcc : ∀ c ∈ s, p c = false → inWindow T c = false := by
        intro c hcs hpc
        rcases Bool.eq_false_or_eq_true (inWindow T c) with hb | hb
        · exact absurd ⟨c, hcs, hpc, hb⟩ hc
        · exact hb
      have hzero : ((s.filter (fun a => !(p a))).filter
          (fun c => inWindow T c)).length = 0 := by
        rw [List.length_eq_zero, List.filter_eq_nil_iff]
        intro a ha
        have hmem := List.mem_filter.mp ha
        have hpa : p a = false := by simpa using hmem.2
        rw [hcc a hmem.1 hpa]
        simp
      have hpart := length_filter_partition s p (fun c => inWindow T c)
      have hlen2 : s2.length ≤ 60 := by
        rw [heq, List.length_append]
        simpa using Nat.add_le_add hplen (le_refl 1)
      have hih := ih hdrest s2 t2 T hlen2
      have hone : ([t2].filter (fun c => inWindow T c)).length =
          (if inWindow T t2 = true then 1 else 0) := by
        by_cases hw : inWindow T t2 = true <;> simp [hw]
      have hs2f : (s2.filter (fun c => inWindow T c)).length =
          ((s.filter p).filter (fun c => inWindow T c)).length +
            (if inWindow T t2 = true then 1 else 0) := by
        rw [heq, List.filter_append, List.length_append, hone]
      have hhead : ((t2 :: rlRun s2 t2 rest).filter
          (fun i => inWindow T i)).length =
          ((rlRun s2 t2 rest).filter (fun i => inWindow T i)).length +
            (if inWindow T t2 = true then 1 else 0) := by
        rw [List.filter_cons]
        by_cases hw : inWindow T t2 = true <;> simp [hw]
      by_cases hw : inWindow T t2 = true <;>
        simp only [hw, if_true, if_false] at hs2f hhead <;>
        omega

/-- C3: for every sequential sequence of calls through the rate limiter
(each call arriving a nonnegative delay after the previous one returned,
starting from an empty record), every trailing 60-second window `(T-60, T]`
contains at most 60 recorded calls: the limiter purges timestamps older
than the window before each call and blocks until the oldest recorded call
exits the window whenever 60 remain. -/
theorem rateLimiter_window_bound (t0 : ℚ) (ds : List ℚ)
    (h : ∀ d ∈ ds, 0 ≤ d) (T : ℚ) :
    ((rlRun [] t0 ds).filter (fun i => inWindow T i)).length ≤ 60 := by
  have hbound := rlRun_window_count ds h [] t0 T (by simp)
  simpa using hbound

/-- Witness for C3 at a concrete run of two calls. -/
theorem rateLimiter_window_bound_witness :
    ((rlRun [] 0 [0, 1]).filter (fun i => inWindow 5 i)).length ≤ 60 :=
  rateLimiter_window_bound 0 [0, 1]
    (by intro d hd; fin_cases hd <;> norm_num) 5

/-! ## C4, C5, C6: historical series cache -/

theorem fetchHistoricalData_miss_eq (cache : HCache) (syms : List String)
    (lb t : ℕ) (ext : List String → Option HistData)
    (hmiss : ∀ e ∈ List.lookup (histKey syms lb) cache,
      ¬ tdSeconds (t - e.2) < 3600) :
    fetchHistoricalData cache syms lb t ext =
      fetchAndStore cache (histKey syms lb) syms t ext := by
  simp only [fetchHistoricalData]
  cases hl : List.lookup (histKey syms lb) cache with
  | none => rfl
  | some e =>
    rcases e with ⟨d0, t0⟩
    have hm := hmiss ⟨d0, t0⟩ (by rw [hl]; rfl)
    simp only [if_neg hm]

theorem fetchAndStore_ok (cache : HCache) (key : String) (syms : List String)
    (t : ℕ) (ext : List String → Option HistData) (d : HistData)
    (cache1 : HCache) (n1 : ℕ)
    (h : fetchAndStore cache key syms t ext = (Except.ok d, cache1, n1)) :
    cache1 = (key, d, t) :: cache ∧ n1 = syms.length := by
  rw [fetchAndStore] at h
  cases he : ext syms with
  | none =>
    rw [he] at h
    simp at h
  | some dd =>
    rw [he] at h
    dsimp only at h
    by_cases hemp : dd.isEmpty
    · rw [if_pos hemp] at h
      simp at h
    · rw [if_neg hemp] at h
      by_cases hval : (dd.filter (fun c => validColumn c.2)).length < 3
      · rw [if_pos hval] at h
        simp at h
      · rw [if_neg hval] at h
        rw [Prod.ext_iff, Prod.ext_iff] at h
        obtain ⟨hok, hcc, hnn⟩ := h
        dsimp only at hok hcc hnn
        refine ⟨?_, hnn.symm⟩
        rw [← hcc]
        have hdd : dd.filter (fun c => validColumn c.2) = d := by
          simpa using hok
        rw [hdd]

/-- C4 (evaluating the bug): a historical-data cache entry stored at time 0
is still served — with zero external calls — when it is 87000 seconds
(24 hours 10 minutes) old, because `(now - cached_time).seconds` is the age
modulo 86400, here 600 < 3600; the claim, the spec's `now - created_at <
ttl` rule and the source's own `1 hour cache for historical data` comment
all require a fresh fetch for any age of one hour or more. -/
theorem fetchHistoricalData_stale_day_served :
    3600 ≤ 87000 ∧
    fetchHistoricalData
        [(histKey ["A", "B", "C"] 252,
          [("A", List.replicate 60 (some (1:ℚ)))], 0)]
        ["A", "B", "C"] 252 87000 (fun _ => none) =
      (Except.ok [("A", List.replicate 60 (some (1:ℚ)))],
       [(histKey ["A", "B", "C"] 252,
         [("A", List.replicate 60 (some (1:ℚ)))], 0)],
       0) := ⟨by norm_num, by decide⟩

/-- C5: if a call to `_fetch_historical_data` misses the cache (no fresh
entry under its key) and succeeds, then a second call within 3600 seconds
whose symbol list sorts to the same list and whose lookback is the same —
the cache key is order-independent — issues zero external HTTP calls,
leaves the cache untouched, and returns the identical stored dataset, for
any behavior of the external provider on the second call. -/
theorem fetchHistoricalData_idempotent
    (cache : HCache) (syms1 syms2 : List String) (lb t1 t2 : ℕ)
    (ext1 ext2 : List String → Option HistData) (d : HistData)
    (cache1 : HCache) (n1 : ℕ)
    (hsort : sortStrings syms2 = sortStrings syms1)
    (hmiss : ∀ e ∈ List.lookup (histKey syms1 lb) cache,
      ¬ tdSeconds (t1 - e.2) < 3600)
    (h1 : fetchHistoricalData cache syms1 lb t1 ext1 =
      (Except.ok d, cache1, n1))
    (_hle : t1 ≤ t2) (httl : t2 - t1 < 3600) :
    fetchHistoricalData cache1 syms2 lb t2 ext2 = (Except.ok d, cache1, 0) := by
  have hkeys : histKey syms2 lb = histKey syms1 lb := by
    rw [histKey, histKey, hsort]
  rw [fetchHistoricalData_miss_eq cache syms1 lb t1 ext1 hmiss] at h1
  obtain ⟨hcache, _⟩ := fetchAndStore_ok _ _ _ _ _ _ _ _ h1
  have hfresh : tdSeconds (t2 - t1) < 3600 := by
    rw [tdSeconds, Nat.mod_eq_of_lt (by omega)]
    omega
  simp only [fetchHistoricalData, hkeys, hcache, List.lookup_cons,
    beq_self_eq_true, if_pos hfresh]

/-- Witness for C5: a concrete first fetch at time 1000 stores the dataset,
and the second call at time 4599 with the symbols permuted returns it with
zero external calls even though its own provider oracle would fail. -/
theorem fetchHistoricalData_idempotent_witness :
    fetchHistoricalData
        [(histKey ["A", "B", "C"] 252,
          [("A", List.replicate 60 (some (1:ℚ))),
           ("B", List.replicate 60 (some (1:ℚ))),
           ("C", List.replicate 60 (some (1:ℚ)))], 1000)]
        ["C", "B", "A"] 252 4599 (fun _ => none) =
      (Except.ok
        [("A", List.replicate 60 (some (1:ℚ))),
         ("B", List.replicate 60 (some (1:ℚ))),
         ("C", List.replicate 60 (some (1:ℚ)))],
       [(histKey ["A", "B", "C"] 252,
         [("A", List.replicate 60 (some (1:ℚ))),
          ("B", List.replicate 60 (some (1:ℚ))),
          ("C", List.replicate 60 (some (1:ℚ)))], 1000)],
       0) :=
  fetchHistoricalData_idempotent [] ["A", "B", "C"] ["C", "B", "A"] 252 1000
    4599
    (fun _ => some
      [("A", List.replicate 60 (some (1:ℚ))),
       ("B", List.replicate 60 (some (1:ℚ))),
       ("C", List.replicate 60 (some (1:ℚ)))])
    (fun _ => none)
    [("A", List.replicate 60 (some (1:ℚ))),
     ("B", List.replicate 60 (some (1:ℚ))),
     ("C", List.replicate 60 (some (1:ℚ)))]
    [(histKey ["A", "B", "C"] 252,
      [("A", List.replicate 60 (some (1:ℚ))),
       ("B", List.replicate 60 (some (1:ℚ))),
       ("C", List.replicate 60 (some (1:ℚ)))], 1000)]
    3
    (by decide)
    (by intro e he; cases he)
    (by decide)
    (by decide)
    (by decide)

/-- C6: on a cache miss, when the provider returns a nonempty frame in
which fewer than 3 columns keep at least 60 valid observations,
`_fetch_historical_data` fails with the insufficient-history error and the
cache is left exactly as it was — nothing is stored under the key. -/
theorem fetchHistoricalData_insufficient_leaves_cache
    (cache : HCache) (syms : List String) (lb t : ℕ)
    (ext : List String → Option HistData) (d : HistData)
    (hmiss : ∀ e ∈ List.lookup (histKey syms lb) cache,
      ¬ tdSeconds (t - e.2) < 3600)
    (hext : ext syms = some d) (hne : d.isEmpty = false)
    (hval : (d.filter (fun c => validColumn c.2)).length < 3) :
    fetchHistoricalData cache syms lb t ext =
      (Except.error FetchErr.insufficientHistory, cache, syms.length) := by
  rw [fetchHistoricalData_miss_eq cache syms lb t ext hmiss, fetchAndStore,
    hext]
  dsimp only
  rw [hne]
  simp only [Bool.false_eq_true, if_false, if_pos hval]

/-- Witness for C6: three symbols whose series all have a single
observation are all dropped, the fetch fails and the cache stays empty. -/
theorem fetchHistoricalData_insufficient_leaves_cache_witness :
    fetchHistoricalData [] ["A", "B", "C"] 252 0
        (fun _ => some [("A", [some (1:ℚ)]), ("B", [some (1:ℚ)]),
          ("C", [some (1:ℚ)])]) =
      (Except.error FetchErr.insufficientHistory, [], 3) :=
  fetchHistoricalData_insufficient_leaves_cache [] ["A", "B", "C"] 252 0
    (fun _ => some [("A", [some (1:ℚ)]), ("B", [some (1:ℚ)]),
      ("C", [some (1:ℚ)])])
    [("A", [some (1:ℚ)]), ("B", [some (1:ℚ)]), ("C", [some (1:ℚ)])]
    (by intro e he; cases he)
    (by decide)
    (by decide)
    (by decide)

/-! ## C7: orchestrator failure before fetches -/

/-- C7 (as stated, refuted): with two holdings, an empty quote cache and no
request-supplied prices, `optimize_portfolio` does fail with the
insufficient-holdings error and performs no historical-data call, but it
has already issued 2 quote calls — one per uncached symbol — before the
error, because holdings are priced before the holdings-count check. -/
theorem optimizePortfolio_quote_calls_before_error_cex :
    optimizePortfolioModel none false none none
        [⟨"1", "A", 1, 10⟩, ⟨"2", "B", 1, 10⟩]
        (fun _ => none) (fun _ => some 10) (fun _ => 10)
        [] 252 0 (fun _ => none)
        (fun _ _ => (Except.error OErr.downstream : Except OErr Unit)) =
      (Except.error OErr.insufficientHoldings, 2, 0) ∧ (2 : ℕ) ≠ 0 :=
  ⟨by decide, by decide⟩

theorem optimizeBody_few_holdings {ρ : Type}
    (r_prices : Option (List (String × ℚ))) (hs : List Holding0)
    (cachedQuote quote : String → Option ℚ) (fallback : String → ℚ)
    (hcache : HCache) (lookback now : ℕ)
    (ext : List String → Option HistData)
    (finish : HistData → List HWM → Except OErr ρ)
    (hfew : hs.length < 3) :
    ∃ e qc, optimizeBody r_prices hs cachedQuote quote fallback hcache
        lookback now ext finish = (Except.error e, qc, 0) ∧
      isInsufficientHoldingsErr e = true := by
  simp only [optimizeBody]
  cases r_prices with
  | some ps =>
    dsimp only
    have hlen : (getHoldingsWithProvidedPrices hs ps).length = hs.length := by
      simp [getHoldingsWithProvidedPrices]
    by_cases hemp : (getHoldingsWithProvidedPrices hs ps).isEmpty
    · exact ⟨OErr.noHoldings, 0, by rw [if_pos hemp], rfl⟩
    · refine ⟨OErr.insufficientHoldings, 0, ?_, rfl⟩
      rw [if_neg hemp, if_pos (by rw [hlen]; exact hfew)]
  | none =>
    dsimp only
    have hlen : (getHoldingsWithCurrentPrices hs cachedQuote quote
        fallback).1.length = hs.length := by
      simp [getHoldingsWithCurrentPrices]
    by_cases hemp :
        (getHoldingsWithCurrentPrices hs cachedQuote quote fallback).1.isEmpty
    · exact ⟨OErr.noHoldings,
        (getHoldingsWithCurrentPrices hs cachedQuote quote fallback).2,
        by rw [if_pos hemp], rfl⟩
    · refine ⟨OErr.insufficientHoldings,
        (getHoldingsWithCurrentPrices hs cachedQuote quote fallback).2,
        ?_, rfl⟩
      rw [if_neg hemp, if_pos (by rw [hlen]; exact hfew)]

/-- C7 (amended): with no fresh cached result and no in-flight shortcut, a
portfolio with fewer than 3 holdings makes `optimize_portfolio` fail with
an error of the insufficient-holdings family, and zero historical-data
calls are issued before the failure; quote calls for uncached symbols may
be issued before the error (as the companion counterexample records), so
only the historical fetch is guaranteed to be avoided. -/
theorem optimizePortfolio_few_holdings_fails_before_hist_fetch {ρ : Type}
    (inFlight : Bool) (recheck : Option ρ)
    (r_prices : Option (List (String × ℚ))) (hs : List Holding0)
    (cachedQuote quote : String → Option ℚ) (fallback : String → ℚ)
    (hcache : HCache) (lookback now : ℕ)
    (ext : List String → Option HistData)
    (finish : HistData → List HWM → Except OErr ρ)
    (hfew : hs.length < 3)
    (hnofly : inFlight = false ∨ recheck = none) :
    ∃ e qc, optimizePortfolioModel none inFlight recheck r_prices hs
        cachedQuote quote fallback hcache lookback now ext finish =
      (Except.error e, qc, 0) ∧ isInsufficientHoldingsErr e = true := by
  have hbody := optimizeBody_few_holdings r_prices hs cachedQuote quote
    fallback hcache lookback now ext finish hfew
  rcases hnofly with hf | hr
  · subst hf
    simpa [optimizePortfolioModel] using hbody
  · subst hr
    cases inFlight <;> simpa [optimizePortfolioModel] using hbody

/-- Witness for the amended C7 statement at the counterexample input. -/
theorem optimizePortfolio_few_holdings_witness :
    ∃ e qc, optimizePortfolioModel none false none none
        [⟨"1", "A", 1, 10⟩, ⟨"2", "B", 1, 10⟩]
        (fun _ => none) (fun _ => some 10) (fun _ => 10)
        [] 252 0 (fun _ => none)
        (fun _ _ => (Except.error OErr.downstream : Except OErr Unit)) =
      (Except.error e, qc, 0) ∧ isInsufficientHoldingsErr e = true :=
  optimizePortfolio_few_holdings_fails_before_hist_fetch false none none
    [⟨"1", "A", 1, 10⟩, ⟨"2", "B", 1, 10⟩]
    (fun _ => none) (fun _ => some 10) (fun _ => 10)
    [] 252 0 (fun _ => none)
    (fun _ _ => (Except.error OErr.downstream : Except OErr Unit))
    (by decide) (Or.inl rfl)

/-! ## C8: target_return required for efficient_return -/

/-- C8: a request whose objective is `efficient_return` with no
target_return supplied is rejected by the route's validation with an
error — the missing-target error when the risk profile is valid, and in
every case one of the request-validation errors the spec taxonomy types as
`InvalidRequestError` — before any portfolio work. -/
theorem validateRequest_efficient_return_requires_target (r : ReqM)
    (hobj : r.objective = "efficient_return")
    (hmissing : r.target_return = none) :
    (∃ e, validateOptimizationRequest r = some e) ∧
    (r.risk_profile ∈ validProfiles →
      validateOptimizationRequest r = some RouteErr.missingTargetReturn) := by
  simp only [validateOptimizationRequest]
  by_cases hp : r.risk_profile ∈ validProfiles
  · rw [if_neg (by simpa using hp)]
    rw [if_neg (by rw [hobj]; decide)]
    rw [if_pos ⟨hobj, by rw [hmissing]; simp [truthyTarget]⟩]
    exact ⟨⟨RouteErr.missingTargetReturn, rfl⟩, fun _ => rfl⟩
  · rw [if_pos (by simpa using hp)]
    exact ⟨⟨RouteErr.invalidRiskProfile, rfl⟩, fun hcon => absurd hcon hp⟩

/-- Witness for C8 at a concrete request. -/
theorem validateRequest_efficient_return_requires_target_witness :
    (∃ e, validateOptimizationRequest
        ⟨"moderate", "efficient_return", none, 1/100, 2/5⟩ = some e) ∧
    ("moderate" ∈ validProfiles →
      validateOptimizationRequest
          ⟨"moderate", "efficient_return", none, 1/100, 2/5⟩ =
        some RouteErr.missingTargetReturn) :=
  validateRequest_efficient_return_requires_target
    ⟨"moderate", "efficient_return", none, 1/100, 2/5⟩ rfl rfl

/-! ## C10: truthiness-guarded overrides in the risk configuration -/

/-- C10: `_get_risk_config` applies a request override only when the value
is truthy, not whenever it is present: a supplied target_return of 0, a
supplied min_weight of 0 and an objective supplied as the empty string are
all silently replaced by the risk profile's defaults, whereas a nonzero
supplied value does override. -/
theorem getRiskConfig_zero_not_override (r : ReqM) (base : RiskConfig)
    (hbase : riskProfiles r.risk_profile = some base) :
    ∃ c, getRiskConfig r = some c ∧
      (r.target_return = some 0 → c.target_return = base.target_return) ∧
      (r.min_weight = 0 → c.min_weight = base.min_weight) ∧
      (r.objective = "" → c.objective = base.objective) ∧
      (∀ tq, r.target_return = some tq → tq ≠ 0 → c.target_return = tq) ∧
      (r.min_weight ≠ 0 → c.min_weight = r.min_weight) := by
  simp only [getRiskConfig, hbase]
  refine ⟨_, rfl, ?_, ?_, ?_, ?_, ?_⟩
  · intro h
    rw [h]
    simp
  · intro h
    rw [h]
    simp
  · intro h
    rw [h]
    simp
  · intro tq h htq
    rw [h]
    simp [htq]
  · intro h
    simp [h]

/-- Witness for C10 at a request supplying target_return 0, min_weight 0
and an empty objective over the moderate profile. -/
theorem getRiskConfig_zero_not_override_witness :
    ∃ c, getRiskConfig ⟨"moderate", "", some 0, 0, 0⟩ = some c ∧
      ((some (0:ℚ) = some 0 →
        c.target_return = RiskConfig.target_return
          ⟨some (20/100), 2/100, 30/100, "efficient_return", 12/100⟩) ∧
      ((0:ℚ) = 0 →
        c.min_weight = RiskConfig.min_weight
          ⟨some (20/100), 2/100, 30/100, "efficient_return", 12/100⟩) ∧
      ("" = "" →
        c.objective = RiskConfig.objective
          ⟨some (20/100), 2/100, 30/100, "efficient_return", 12/100⟩) ∧
      (∀ tq : ℚ, some (0:ℚ) = some tq → tq ≠ 0 → c.target_return = tq) ∧
      ((0:ℚ) ≠ 0 → c.min_weight = 0)) :=
  getRiskConfig_zero_not_override ⟨"moderate", "", some 0, 0, 0⟩
    ⟨some (20/100), 2/100, 30/100, "efficient_return", 12/100⟩
    (by simp only [riskProfiles]; rw [if_neg (by decide)]; simp)

/-! ## C9: risk metrics -/

theorem getD_replicate_zero : ∀ (k i : ℕ),
    (List.replicate k (0:ℚ)).getD i 0 = 0 := by
  intro k
  induction k with
  | zero => intro i; simp
  | succ k ih =>
    intro i
    cases i with
    | zero => simp [List.replicate_succ]
    | succ j => simp [List.replicate_succ, ih j]

theorem listMin_replicate_zero : ∀ (k : ℕ),
    listMin (List.replicate (k + 1) (0:ℚ)) = 0 := by
  intro k
  induction k with
  | zero => rfl
  | succ j ih =>
    rw [List.replicate_succ, List.replicate_succ]
    rw [List.replicate_succ] at ih
    rw [listMin, ih, minQ]
    simp

theorem sortQ_replicate_zero : ∀ (k : ℕ),
    sortQ (List.replicate k (0:ℚ)) = List.replicate k 0 := by
  intro k
  induction k with
  | zero => rfl
  | succ j ih =>
    rw [List.replicate_succ, sortQ, List.foldr_cons]
    have : List.foldr insertQ [] (List.replicate j (0:ℚ)) =
        List.replicate j 0 := ih
    rw [this]
    cases j with
    | zero => rfl
    | succ i =>
      rw [List.replicate_succ, insertQ, if_pos (le_refl (0:ℚ)),
        ← List.replicate_succ, ← List.replicate_succ]

theorem scanl_growth_replicate_zero : ∀ (k : ℕ),
    List.scanl (fun a r => a * (1 + r)) (1:ℚ) (List.replicate k 0) =
      List.replicate (k + 1) 1 := by
  intro k
  induction k with
  | zero => rfl
  | succ j ih =>
    rw [List.replicate_succ, List.scanl]
    have h1 : (1:ℚ) * (1 + 0) = 1 := by norm_num
    rw [h1, ih, List.replicate_succ 1 (j + 1)]

theorem scanl_maxQ_replicate_one : ∀ (k : ℕ),
    List.scanl (fun m y => maxQ m y) (1:ℚ) (List.replicate k 1) =
      List.replicate (k + 1) 1 := by
  intro k
  induction k with
  | zero => rfl
  | succ j ih =>
    rw [List.replicate_succ, List.scanl]
    have h1 : maxQ (1:ℚ) 1 = 1 := by simp [maxQ]
    rw [h1, ih, List.replicate_succ 1 (j + 1)]

theorem portfolioReturns_replicate (symbols : List String) (ps : List ℚ)
    (m : ℕ) (w : WeightVec) (hps : ∀ p ∈ ps, p ≠ 0) :
    portfolioReturns symbols (List.replicate m ps) w =
      List.replicate (m - 1) 0 := by
  rw [portfolioReturns, pctChangeRows, List.tail_replicate,
    List.zipWith_replicate]
  have hmin : m ⊓ (m - 1) = m - 1 := min_eq_right (Nat.sub_le m 1)
  rw [hmin, List.map_replicate]
  have hrow : List.zipWith (fun a b => b / a - 1) ps ps =
      List.map (fun a => a / a - 1) ps := List.zipWith_same _ ps
  rw [hrow]
  have hzero : (((List.map (fun a => a / a - 1) ps).zip
      (weightsArray symbols w)).map (fun p => p.1 * p.2)).sum = 0 := by
    apply List.sum_eq_zero
    intro x hx
    obtain ⟨⟨a, b⟩, hab, rfl⟩ := List.mem_map.mp hx
    have ha := List.of_mem_zip hab
    obtain ⟨p, hp, rfl⟩ := List.mem_map.mp ha.1
    rw [div_self (hps p hp)]
    simp
  rw [hzero]

theorem maxDrawdownCalc_replicate (symbols : List String) (ps : List ℚ)
    (m : ℕ) (w : WeightVec) (hm : 2 ≤ m) (hps : ∀ p ∈ ps, p ≠ 0) :
    maxDrawdownCalc symbols (List.replicate m ps) w = some 0 := by
  obtain ⟨k, rfl⟩ : ∃ k, m = k + 2 := ⟨m - 2, by omega⟩
  rw [maxDrawdownCalc, portfolioReturns_replicate symbols ps (k + 2) w hps]
  have hk : k + 2 - 1 = k + 1 := by omega
  rw [hk, cumGrowth, scanl_growth_replicate_zero (k + 1)]
  have htail : (List.replicate (k + 1 + 1) (1:ℚ)).tail =
      List.replicate (k + 1) 1 := List.tail_replicate _ _
  rw [htail]
  have hrm : runningMax (List.replicate (k + 1) (1:ℚ)) =
      List.replicate (k + 1) 1 := by
    rw [List.replicate_succ, runningMax, scanl_maxQ_replicate_one k,
      ← List.replicate_succ]
  rw [hrm, List.zipWith_replicate]
  have h11 : ((1:ℚ) - 1) / 1 = 0 := by norm_num
  have hmin : (k + 1) ⊓ (k + 1) = k + 1 := min_self _
  rw [hmin, h11, List.replicate_succ]
  dsimp only
  rw [← List.replicate_succ, listMin_replicate_zero k]
  simp [absQ]

theorem cvarCalc_replicate (ann : ℚ) (symbols : List String) (ps : List ℚ)
    (m : ℕ) (w : WeightVec) (hm : 2 ≤ m) (hps : ∀ p ∈ ps, p ≠ 0) :
    cvarCalc ann symbols (List.replicate m ps) w = some 0 := by
  obtain ⟨k, rfl⟩ : ∃ k, m = k + 2 := ⟨m - 2, by omega⟩
  rw [cvarCalc, portfolioReturns_replicate symbols ps (k + 2) w hps]
  have hk : k + 2 - 1 = k + 1 := by omega
  rw [hk]
  have hperc : percentileLinear 5 (List.replicate (k + 1) 0) = some 0 := by
    rw [percentileLinear, sortQ_replicate_zero (k + 1)]
    rw [List.replicate_succ]
    dsimp only
    rw [← List.replicate_succ]
    rw [getD_replicate_zero, getD_replicate_zero]
    have : ∀ b : Prop, [Decidable b] → (if b then (0:ℚ) else 0) = 0 :=
      fun b _ => by split <;> rfl
    rw [this]
    simp
  rw [hperc]
  dsimp only
  have hfil : (List.replicate (k + 1) (0:ℚ)).filter (fun r => r ≤ 0) =
      List.replicate (k + 1) 0 := by
    rw [List.filter_replicate]
    simp
  rw [hfil]
  have hlen : (List.replicate (k + 1) (0:ℚ)).length = k + 1 := by simp
  rw [if_pos (by rw [hlen]; omega)]
  rw [List.sum_replicate]
  simp [absQ]

/-- C9 (as stated, refuted): on the degenerate all-zero-variance dataset of
four identical price rows, both risk metrics return the non-null value 0
rather than null. -/
theorem riskMetrics_degenerate_nonnull_cex :
    maxDrawdownCalc ["A", "B", "C"] (List.replicate 4 [100, 100, 100])
        [("A", 1/3), ("B", 1/3), ("C", 1/3)] = some 0 ∧
    cvarCalc 15 ["A", "B", "C"] (List.replicate 4 [100, 100, 100])
        [("A", 1/3), ("B", 1/3), ("C", 1/3)] = some 0 ∧
    maxDrawdownCalc ["A", "B", "C"] (List.replicate 4 [100, 100, 100])
        [("A", 1/3), ("B", 1/3), ("C", 1/3)] ≠ none ∧
    cvarCalc 15 ["A", "B", "C"] (List.replicate 4 [100, 100, 100])
        [("A", 1/3), ("B", 1/3), ("C", 1/3)] ≠ none := by
  have h1 := maxDrawdownCalc_replicate ["A", "B", "C"] [100, 100, 100] 4
    [("A", 1/3), ("B", 1/3), ("C", 1/3)] (by norm_num)
    (by intro p hp; fin_cases hp <;> norm_num)
  have h2 := cvarCalc_replicate 15 ["A", "B", "C"] [100, 100, 100] 4
    [("A", 1/3), ("B", 1/3), ("C", 1/3)] (by norm_num)
    (by intro p hp; fin_cases hp <;> norm_num)
  exact ⟨h1, h2, by rw [h1]; exact Option.some_ne_none 0,
    by rw [h2]; exact Option.some_ne_none 0⟩

/-- C9 (amended): both metric calculators are total functions of the
embedded dataset (the `try/except` of the source returns None instead of
raising, embedded as `Option`); whenever either returns a non-null value
the value is nonnegative; and on a degenerate all-constant dataset of at
least two rows both return 0 — a non-null value — rather than null, for
any weights and any annualization factor. -/
theorem riskMetrics_nonneg_and_degenerate_zero :
    (∀ (symbols : List String) (rows : List (List ℚ)) (w : WeightVec) (v : ℚ),
      maxDrawdownCalc symbols rows w = some v → 0 ≤ v) ∧
    (∀ (ann : ℚ) (symbols : List String) (rows : List (List ℚ))
      (w : WeightVec) (v : ℚ), cvarCalc ann symbols rows w = some v → 0 ≤ v) ∧
    (∀ (symbols : List String) (ps : List ℚ) (m : ℕ) (w : WeightVec) (ann : ℚ),
      2 ≤ m → (∀ p ∈ ps, p ≠ 0) →
      maxDrawdownCalc symbols (List.replicate m ps) w = some 0 ∧
      cvarCalc ann symbols (List.replicate m ps) w = some 0) := by
  refine ⟨?_, ?_, ?_⟩
  · intro symbols rows w v h
    rw [maxDrawdownCalc] at h
    set dd := List.zipWith (fun c m => (c - m) / m)
      (cumGrowth (portfolioReturns symbols rows w))
      (runningMax (cumGrowth (portfolioReturns symbols rows w))) with hdd
    cases hd : dd with
    | nil => rw [hd] at h; simp at h
    | cons x xs =>
      rw [hd] at h
      have hv := Option.some.inj h
      rw [← hv]
      exact absQ_nonneg _
  · intro ann symbols rows w v h
    rw [cvarCalc] at h
    cases hp : percentileLinear 5 (portfolioReturns symbols rows w) with
    | none => rw [hp] at h; simp at h
    | some var =>
      rw [hp] at h
      dsimp only at h
      have hv := Option.some.inj h
      rw [← hv]
      exact absQ_nonneg _
  · intro symbols ps m w ann hm hps
    exact ⟨maxDrawdownCalc_replicate symbols ps m w hm hps,
      cvarCalc_replicate ann symbols ps m w hm hps⟩

/-- Witness for the amended C9 statement at a concrete degenerate input. -/
theorem riskMetrics_nonneg_and_degenerate_zero_witness :
    maxDrawdownCalc ["A"] (List.replicate 2 [1]) [] = some 0 ∧
    cvarCalc 15 ["A"] (List.replicate 2 [1]) [] = some 0 :=
  riskMetrics_nonneg_and_degenerate_zero.2.2 ["A"] [1] 2 [] 15
    (by norm_num)
    (by intro p hp; fin_cases hp; norm_num)
